import Mathlib

/-!
Verification of the multi-account fan-out core of a command-line exchange
client (main.go).  The embedding models, from the source: the credential
store (loadKeys), the account registry (initAccounts and its construction
loop, here buildAccounts), the account selector (findAccountsImpl and the
arbitrary-single selector installed by runOnce), the fan-out executor
(accountsDo) and the optional result finalizer (the postAction argument).

External capabilities are parameters of an Env record: file reading and
JSON unmarshalling (consumed by loadKeys) are opaque functions returning
either a value or an error, mirroring the Go error-return convention.

Go maps are modelled as association lists with key-replacing insertion
(mapUpsert) and first-match lookup (mapLookup): assignment to an existing
key overwrites its value, lookup of an absent key yields none — which for
the map of Account pointers models the nil pointer Go returns.  Go map
iteration order is unspecified; the association-list order is one
admissible iteration order, and the theorems below do not depend on it
except where the source itself picks the first yielded entry (runOnce),
which the specification already documents as an implementation-defined
arbitrary choice.

Process-level effects are reified in the RunOutcome type: fatalExit models
log.Fatal (exit status 1), nilDeref models the runtime panic caused by
dereferencing a nil Account pointer (exit status 2), errReturn models a
non-nil error returned to main (which then calls log.Fatal, exit status 1),
and rendered models a successful json.MarshalIndent plus print (exit
status 0; serialization of the value types used here cannot fail).
-/

namespace BinanceCli

/-- Credential record, one entry of the JSON key file (struct AccountKey). -/
structure AccountKey where
  name : String
  apiKey : String
  secretKey : String
  deriving Repr, DecidableEq

/-- The exchange client session handle: binance.NewClient(apiKey, secretKey)
with the Debug field set from the global debug flag. -/
structure Client where
  apiKey : String
  secretKey : String
  debugMode : Bool
  deriving Repr, DecidableEq

/-- One configured account: struct Account with its Client and Name. -/
structure Account where
  client : Client
  name : String
  deriving Repr, DecidableEq

/-- Process environment: the global flag variables (name, keyfile, debug)
together with the external file-read and JSON-unmarshal capabilities. -/
structure Env where
  name : String
  keyfile : String
  debugFlag : Bool
  readFile : String → Except String String
  unmarshal : String → Except String (List AccountKey)

/-- Association-list lookup, modelling Go map indexing: absent key gives
none (the nil pointer for a map of pointers). -/
def mapLookup (m : List (String × α)) (k : String) : Option α :=
  match m with
  | [] => none
  | p :: rest => if p.1 = k then some p.2 else mapLookup rest k

/-- Association-list insertion, modelling Go map assignment: an existing
key has its value replaced, a new key is appended. -/
def mapUpsert (m : List (String × α)) (k : String) (v : α) : List (String × α) :=
  match m with
  | [] => [(k, v)]
  | p :: rest => if p.1 = k then (k, v) :: rest else p :: mapUpsert rest k v

/-- loadKeys: read the key file, then unmarshal it; either failure is
returned as an error (errors.Trace preserves the message). -/
def loadKeys (env : Env) (filePath : String) : Except String (List AccountKey) :=
  match env.readFile filePath with
  | .error e => .error e
  | .ok keyBytes => env.unmarshal keyBytes

/-- The keyfile defaulting at the top of initAccounts:
if keyfile == "" then keyfile = "keys.json". -/
def resolveKeyfile (keyfile : String) : String :=
  if keyfile = "" then "keys.json" else keyfile

/-- Session construction for one credential record: binance.NewClient with
the api key and secret key, Debug set from the global debug flag. -/
def mkAccount (key : AccountKey) (dbg : Bool) : Account :=
  { client := { apiKey := key.apiKey, secretKey := key.secretKey, debugMode := dbg },
    name := key.name }

/-- The registry-building loop of initAccounts: for each record, store the
Account under its name (accounts[account.Name] = account; duplicate names
overwrite, last wins). -/
def buildAccounts (keys : List AccountKey) (dbg : Bool) : List (String × Account) :=
  keys.foldl (fun m key => mapUpsert m key.name (mkAccount key dbg)) []

/-- initAccounts: default the keyfile, load the keys (log.Fatal on error,
modelled as the error branch), and rebuild the registry from scratch. -/
def initAccounts (env : Env) : Except String (List (String × Account)) :=
  match loadKeys env (resolveKeyfile env.keyfile) with
  | .error e => .error e
  | .ok keys => .ok (buildAccounts keys env.debugFlag)

/-- View of a registry as a selection: every account is present. -/
def selAll (m : List (String × Account)) : List (String × Option Account) :=
  m.map (fun p => (p.1, some p.2))

/-- findAccountsImpl: rebuild the registry; with an empty name return it
whole, otherwise return the one-entry map {name: accounts[name]} — whose
value is none (nil) when the name is absent. -/
def findAccountsImpl (env : Env) (nm : String) : Except String (List (String × Option Account)) :=
  match initAccounts env with
  | .error e => .error e
  | .ok accounts =>
      if nm = "" then .ok (selAll accounts)
      else .ok [(nm, mapLookup accounts nm)]

/-- The selector runOnce installs: rebuild the registry and return a
one-entry map from whichever entry the map yields first, or nil (here the
empty selection) when the registry is empty.  The name filter is ignored. -/
def findAccountsArbitrary (env : Env) : Except String (List (String × Option Account)) :=
  match initAccounts env with
  | .error e => .error e
  | .ok accounts =>
      match accounts with
      | [] => .ok []
      | (k, v) :: _ => .ok [(k, some v)]

/-- The two values the package-level findAccounts function variable takes:
findAccountsImpl (installed by init) or the closure installed by runOnce. -/
inductive Strategy where
  | byName
  | arbitrarySingle
  deriving Repr, DecidableEq

/-- Dispatch through the findAccounts function variable, applied to the
global name flag as accountsDo does. -/
def runStrategy (strat : Strategy) (env : Env) : Except String (List (String × Option Account)) :=
  match strat with
  | .byName => findAccountsImpl env env.name
  | .arbitrarySingle => findAccountsArbitrary env

/-- One value of the results map: either the error string recorded for a
failed account or the operation payload of a successful one (the map is
map[string]interface, so the two shapes coexist). -/
inductive Entry (α : Type) where
  | errorStr (s : String)
  | payload (v : α)
  deriving Repr, DecidableEq

/-- The fan-out loop of accountsDo over the selected accounts: a nil
account is dereferenced (action(account) and results[account.Name]), which
panics — modelled as none; otherwise a failed action records the string
"error: " ++ message and a successful one records the payload, and the
loop always continues to the next account. -/
def processAccounts (action : Account → Except String α) :
    List (String × Option Account) → List (String × Entry α) →
    Option (List (String × Entry α))
  | [], results => some results
  | (_, none) :: _, _ => none
  | (_, some a) :: rest, results =>
      match action a with
      | .error e => processAccounts action rest (mapUpsert results a.name (.errorStr ("error: " ++ e)))
      | .ok res => processAccounts action rest (mapUpsert results a.name (.payload res))

/-- Outcome of one accountsDo invocation, at process granularity. -/
inductive RunOutcome (α β : Type) where
  | fatalExit (msg : String)
  | nilDeref
  | errReturn (msg : String)
  | rendered (value : Sum β (List (String × Entry α)))
  deriving DecidableEq

/-- The tail of accountsDo after selection: run the loop, then either
apply the finalizer (propagating its error, rendering its value) or
render the raw results map. -/
def accountsDoSel (accts : List (String × Option Account)) (action : Account → Except String α)
    (postAction : Option (List (String × Entry α) → Except String β)) : RunOutcome α β :=
  match processAccounts action accts [] with
  | none => .nilDeref
  | some results =>
      match postAction with
      | some pa =>
          match pa results with
          | .error e => .errReturn e
          | .ok v => .rendered (.inl v)
      | none => .rendered (.inr results)

/-- accountsDo: resolve the selection through the findAccounts variable
(fatal if the registry rebuild hit log.Fatal), then fan out. -/
def accountsDo (strat : Strategy) (env : Env) (action : Account → Except String α)
    (postAction : Option (List (String × Entry α) → Except String β)) : RunOutcome α β :=
  match runStrategy strat env with
  | .error e => .fatalExit e
  | .ok accts => accountsDoSel accts action postAction

/-- runOnce: overwrite the findAccounts variable with the arbitrary-single
selector, then call accountsDo.  The overwrite is never undone, so the
new strategy is also the state left behind. -/
def runOnce (env : Env) (action : Account → Except String α)
    (postAction : Option (List (String × Entry α) → Except String β)) :
    RunOutcome α β × Strategy :=
  (accountsDo .arbitrarySingle env action postAction, .arbitrarySingle)

/-- Process exit status of an outcome: log.Fatal exits 1 (both the startup
fatal and the error main receives), a panic exits 2, a rendered result
exits 0. -/
def exitCode : RunOutcome α β → Nat
  | .fatalExit _ => 1
  | .nilDeref => 2
  | .errReturn _ => 1
  | .rendered _ => 0

/-- One top-level invocation of the fan-out machinery within a process:
either through runOnce (order-mutating commands) or directly through
accountsDo (read commands). -/
structure Call (α β : Type) where
  viaRunOnce : Bool
  action : Account → Except String α
  post : Option (List (String × Entry α) → Except String β)

/-- Execute one call against the current findAccounts strategy, returning
the outcome and the strategy left in the process afterwards. -/
def stepCall (strat : Strategy) (env : Env) (c : Call α β) : RunOutcome α β × Strategy :=
  if c.viaRunOnce then runOnce env c.action c.post
  else (accountsDo strat env c.action c.post, strat)

/-- Execute a sequence of calls, threading the process-wide strategy. -/
def execCalls (strat : Strategy) (env : Env) : List (Call α β) → List (RunOutcome α β) × Strategy
  | [] => ([], strat)
  | c :: cs =>
      let s := stepCall strat env c
      let r := execCalls s.2 env cs
      (s.1 :: r.1, r.2)

/-- The last credential record carrying a given name, if any: the record
whose Account survives the last-wins registry construction. -/
def lastKeyWith (keys : List AccountKey) (n : String) : Option AccountKey :=
  match keys with
  | [] => none
  | k :: rest =>
      match lastKeyWith rest n with
      | some r => some r
      | none => if k.name = n then some k else none

/-- The entry the fan-out loop records for one present account. -/
def entryFor (action : Account → Except String α) (a : Account) : Entry α :=
  match action a with
  | .error e => .errorStr ("error: " ++ e)
  | .ok v => .payload v

/-! ## Association-list map lemmas -/

theorem mapLookup_upsert (m : List (String × α)) (k n : String) (v : α) :
    mapLookup (mapUpsert m k v) n = if k = n then some v else mapLookup m n := by
  induction m with
  | nil => simp [mapUpsert, mapLookup]
  | cons p rest ih =>
      by_cases h1 : p.1 = k
      · by_cases h2 : k = n <;> simp [mapUpsert, mapLookup, h1, h2]
      · by_cases h2 : p.1 = n
        · have hk : ¬ k = n := fun hkn => h1 (hkn ▸ h2)
          have hnk : ¬ n = k := fun hnk0 => hk hnk0.symm
          simp [mapUpsert, mapLookup, h1, h2, hk, hnk]
        · simp [mapUpsert, mapLookup, h1, h2, ih]

theorem mem_upsert (m : List (String × α)) (k : String) (v : α) (q : String × α)
    (h : q ∈ mapUpsert m k v) : q ∈ m ∨ q = (k, v) := by
  induction m with
  | nil => simp [mapUpsert] at h; simp [h]
  | cons p rest ih =>
      by_cases h1 : p.1 = k
      · simp [mapUpsert, h1] at h
        rcases h with h | h
        · right; simp [h]
        · left; simp [h]
      · simp [mapUpsert, h1] at h
        rcases h with h | h
        · left; simp [h]
        · rcases ih h with h2 | h2
          · left; simp [h2]
          · right; exact h2

theorem mem_keys_upsert (m : List (String × α)) (k n : String) (v : α) :
    n ∈ (mapUpsert m k v).map Prod.fst ↔ n = k ∨ n ∈ m.map Prod.fst := by
  induction m with
  | nil => simp [mapUpsert, eq_comm]
  | cons p rest ih =>
      by_cases h1 : p.1 = k
      · subst h1; by_cases h2 : n = p.1 <;> simp [mapUpsert, h2, eq_comm]
      · simp [mapUpsert, h1, ih]
        tauto

theorem nodup_keys_upsert (m : List (String × α)) (k : String) (v : α)
    (h : (m.map Prod.fst).Nodup) : ((mapUpsert m k v).map Prod.fst).Nodup := by
  induction m with
  | nil => simp [mapUpsert]
  | cons p rest ih =>
      simp only [List.map_cons, List.nodup_cons] at h
      by_cases h1 : p.1 = k
      · subst h1
        simpa [mapUpsert, List.nodup_cons] using h
      · have hstep : mapUpsert (p :: rest) k v = p :: mapUpsert rest k v := by
          simp [mapUpsert, h1]
        rw [hstep]
        simp only [List.map_cons, List.nodup_cons]
        refine ⟨fun hmem => ?_, ih h.2⟩
        rcases (mem_keys_upsert rest k p.1 v).1 hmem with h2 | h2
        · exact h1 h2
        · exact h.1 h2

theorem upsert_of_not_mem (m : List (String × α)) (k : String) (v : α)
    (h : k ∉ m.map Prod.fst) : mapUpsert m k v = m ++ [(k, v)] := by
  induction m with
  | nil => simp [mapUpsert]
  | cons p rest ih =>
      simp only [List.map_cons, List.mem_cons] at h
      push_neg at h
      have h1 : ¬ p.1 = k := fun hpk => h.1 hpk.symm
      simp [mapUpsert, h1, ih h.2]

/-! ## Registry construction lemmas -/

theorem buildAccounts_foldl_lookup (keys : List AccountKey) (dbg : Bool) :
    ∀ (acc : List (String × Account)) (n : String),
      mapLookup (keys.foldl (fun m key => mapUpsert m key.name (mkAccount key dbg)) acc) n =
        match lastKeyWith keys n with
        | some k => some (mkAccount k dbg)
        | none => mapLookup acc n := by
  induction keys with
  | nil => intro acc n; simp [lastKeyWith]
  | cons k rest ih =>
      intro acc n
      simp only [List.foldl_cons]
      rw [ih]
      cases h : lastKeyWith rest n with
      | some r => simp [lastKeyWith, h]
      | none =>
          by_cases hk : k.name = n <;>
            simp [lastKeyWith, h, hk, mapLookup_upsert]

theorem buildAccounts_lookup (keys : List AccountKey) (dbg : Bool) (n : String) :
    mapLookup (buildAccounts keys dbg) n =
      (lastKeyWith keys n).map (fun k => mkAccount k dbg) := by
  rw [buildAccounts, buildAccounts_foldl_lookup]
  cases lastKeyWith keys n <;> simp [mapLookup]

theorem buildAccounts_foldl_keys_mem (keys : List AccountKey) (dbg : Bool) :
    ∀ (acc : List (String × Account)) (n : String),
      (n ∈ (keys.foldl (fun m key => mapUpsert m key.name (mkAccount key dbg)) acc).map Prod.fst ↔
        n ∈ acc.map Prod.fst ∨ n ∈ keys.map AccountKey.name) := by
  induction keys with
  | nil => intro acc n; simp
  | cons k rest ih =>
      intro acc n
      simp only [List.foldl_cons, List.map_cons, List.mem_cons]
      rw [ih, mem_keys_upsert]
      tauto

theorem buildAccounts_keys_mem (keys : List AccountKey) (dbg : Bool) (n : String) :
    n ∈ (buildAccounts keys dbg).map Prod.fst ↔ n ∈ keys.map AccountKey.name := by
  rw [buildAccounts, buildAccounts_foldl_keys_mem]
  simp

theorem buildAccounts_foldl_keys_nodup (keys : List AccountKey) (dbg : Bool) :
    ∀ (acc : List (String × Account)), (acc.map Prod.fst).Nodup →
      ((keys.foldl (fun m key => mapUpsert m key.name (mkAccount key dbg)) acc).map Prod.fst).Nodup := by
  induction keys with
  | nil => intro acc h; simpa using h
  | cons k rest ih =>
      intro acc h
      simp only [List.foldl_cons]
      exact ih _ (nodup_keys_upsert _ _ _ h)

theorem buildAccounts_keys_nodup (keys : List AccountKey) (dbg : Bool) :
    ((buildAccounts keys dbg).map Prod.fst).Nodup :=
  buildAccounts_foldl_keys_nodup keys dbg [] (by simp)

theorem buildAccounts_foldl_named (keys : List AccountKey) (dbg : Bool) :
    ∀ (acc : List (String × Account)), (∀ p ∈ acc, (Prod.snd p).name = p.1) →
      ∀ p ∈ keys.foldl (fun m key => mapUpsert m key.name (mkAccount key dbg)) acc,
        (Prod.snd p).name = p.1 := by
  induction keys with
  | nil => intro acc h; simpa using h
  | cons k rest ih =>
      intro acc h
      simp only [List.foldl_cons]
      apply ih
      intro p hp
      rcases mem_upsert _ _ _ _ hp with h2 | h2
      · exact h _ h2
      · subst h2; rfl

theorem buildAccounts_named (keys : List AccountKey) (dbg : Bool) :
    ∀ p ∈ buildAccounts keys dbg, (Prod.snd p).name = p.1 :=
  buildAccounts_foldl_named keys dbg [] (by simp)

/-! ## Fan-out loop lemmas -/

theorem processAccounts_cons_some (action : Account → Except String α) (k : String) (a : Account)
    (rest : List (String × Option Account)) (results : List (String × Entry α)) :
    processAccounts action ((k, some a) :: rest) results =
      processAccounts action rest (mapUpsert results a.name (entryFor action a)) := by
  cases h : action a <;> simp [processAccounts, entryFor, h]

theorem processAccounts_selAll (m : List (String × Account)) (action : Account → Except String α) :
    ∀ results, processAccounts action (selAll m) results =
      some (m.foldl (fun r p => mapUpsert r (Prod.snd p).name (entryFor action p.2)) results) := by
  induction m with
  | nil => intro results; simp [selAll, processAccounts]
  | cons p rest ih =>
      intro results
      rw [show selAll (p :: rest) = (p.1, some p.2) :: selAll rest from rfl]
      rw [processAccounts_cons_some, List.foldl_cons]
      exact ih _

theorem fanoutFold_of_nodup (action : Account → Except String α) (m : List (String × Account)) :
    ∀ acc : List (String × Entry α),
      (m.map (fun p => (Prod.snd p).name)).Nodup →
      (∀ n ∈ m.map (fun p => (Prod.snd p).name), n ∉ acc.map Prod.fst) →
      m.foldl (fun r p => mapUpsert r (Prod.snd p).name (entryFor action p.2)) acc =
        acc ++ m.map (fun p => ((Prod.snd p).name, entryFor action p.2)) := by
  induction m with
  | nil => intro acc _ _; simp
  | cons p rest ih =>
      intro acc hd hdisj
      simp only [List.foldl_cons]
      have hp : (Prod.snd p).name ∉ acc.map Prod.fst := hdisj _ (by simp)
      rw [upsert_of_not_mem acc _ _ hp]
      have hd2 : (rest.map (fun p => (Prod.snd p).name)).Nodup := by
        simp only [List.map_cons, List.nodup_cons] at hd; exact hd.2
      have hp1 : (Prod.snd p).name ∉ rest.map (fun p => (Prod.snd p).name) := by
        simp only [List.map_cons, List.nodup_cons] at hd; exact hd.1
      have hdisj2 : ∀ n ∈ rest.map (fun p => (Prod.snd p).name),
          n ∉ (acc ++ [((Prod.snd p).name, entryFor action p.2)]).map Prod.fst := by
        intro n hn hmem
        simp only [List.map_append, List.map_cons, List.map_nil, List.mem_append,
          List.mem_cons, List.not_mem_nil, or_false] at hmem
        rcases hmem with h1 | h1
        · refine hdisj n ?_ h1
          simp only [List.map_cons, List.mem_cons]
          exact Or.inr hn
        · exact hp1 (h1 ▸ hn)
      rw [ih _ hd2 hdisj2]
      simp

theorem fanoutFold_entries {P : String × Entry α → Prop} (action : Account → Except String α)
    (m : List (String × Account)) :
    ∀ acc : List (String × Entry α), (∀ q ∈ acc, P q) →
      (∀ p ∈ m, P ((Prod.snd p).name, entryFor action p.2)) →
      ∀ q ∈ m.foldl (fun r p => mapUpsert r (Prod.snd p).name (entryFor action p.2)) acc, P q := by
  induction m with
  | nil => intro acc hacc _ q hq; exact hacc q hq
  | cons p rest ih =>
      intro acc hacc hm q hq
      simp only [List.foldl_cons] at hq
      refine ih _ ?_ (fun r hr => hm r (by simp [hr])) q hq
      intro r hr
      rcases mem_upsert _ _ _ _ hr with h1 | h1
      · exact hacc r h1
      · subst h1; exact hm p (by simp)

theorem processAccounts_selAll_eq (m : List (String × Account)) (action : Account → Except String α)
    (hd : (m.map (fun p => (Prod.snd p).name)).Nodup) :
    processAccounts action (selAll m) [] =
      some (m.map (fun p => ((Prod.snd p).name, entryFor action p.2))) := by
  rw [processAccounts_selAll]
  rw [fanoutFold_of_nodup action m [] hd (by intro n _ h; simp at h)]
  simp

/-! ## Concrete inputs used by the witnesses -/

def wKeyA : AccountKey := { name := "A", apiKey := "ka", secretKey := "sa" }

def wKeyB : AccountKey := { name := "B", apiKey := "kb", secretKey := "sb" }

def wAccountA : Account := mkAccount wKeyA false

def wAccountB : Account := mkAccount wKeyB false

def wRegAB : List (String × Account) := [("A", wAccountA), ("B", wAccountB)]

def wActionFailA : Account → Except String String :=
  fun a => if a.name = "A" then .error "boom" else .ok "fine"

def wEnvA : Env :=
  { name := "", keyfile := "", debugFlag := false,
    readFile := fun _ => .ok "raw",
    unmarshal := fun _ => .ok [wKeyA] }

/-! ## Claim theorems -/

/-- C2: for a selected set of accounts with pairwise-distinct names, the
fan-out loop always succeeds and yields a results map with exactly one
entry per selected account; each account whose operation fails is recorded
as the string "error: " ++ message, each account whose operation succeeds
is recorded as the operation payload; and since every selected account has
an entry, a failure at any position never prevents later accounts from
being attempted. -/
theorem C2_fanout_isolation (m : List (String × Account)) (action : Account → Except String α)
    (hd : (m.map (fun p => (Prod.snd p).name)).Nodup) :
    ∃ results, processAccounts action (selAll m) [] = some results ∧
      results.length = m.length ∧
      (∀ p ∈ m, ∀ e, action p.2 = .error e →
        ((Prod.snd p).name, Entry.errorStr ("error: " ++ e)) ∈ results) ∧
      (∀ p ∈ m, ∀ v, action p.2 = .ok v →
        ((Prod.snd p).name, Entry.payload v) ∈ results) := by
  refine ⟨m.map (fun p => ((Prod.snd p).name, entryFor action p.2)),
    processAccounts_selAll_eq m action hd, by simp, ?_, ?_⟩
  · intro p hp e he
    have hmem : ((Prod.snd p).name, entryFor action p.2) ∈
        m.map (fun p => ((Prod.snd p).name, entryFor action p.2)) :=
      List.mem_map_of_mem _ hp
    simpa [entryFor, he] using hmem
  · intro p hp v hv
    have hmem : ((Prod.snd p).name, entryFor action p.2) ∈
        m.map (fun p => ((Prod.snd p).name, entryFor action p.2)) :=
      List.mem_map_of_mem _ hp
    simpa [entryFor, hv] using hmem

theorem C2_fanout_isolation_witness :
    ((wRegAB.map (fun p => (Prod.snd p).name)).Nodup) ∧
    (∃ results, processAccounts wActionFailA (selAll wRegAB) [] = some results ∧
      results.length = wRegAB.length ∧
      (∀ p ∈ wRegAB, ∀ e, wActionFailA p.2 = .error e →
        ((Prod.snd p).name, Entry.errorStr ("error: " ++ e)) ∈ results) ∧
      (∀ p ∈ wRegAB, ∀ v, wActionFailA p.2 = .ok v →
        ((Prod.snd p).name, Entry.payload v) ∈ results)) :=
  ⟨by decide, C2_fanout_isolation wRegAB wActionFailA (by decide)⟩

/-- C4: the registry built from a non-empty credential sequence contains
exactly one Account per unique record name: its keys are free of
duplicates and are exactly the record names, every Account is stored under
its own name, and the Account stored for a name is the one built from the
last record carrying that name (later records overwrite earlier ones). -/
theorem C4_registry_last_wins (keys : List AccountKey) (dbg : Bool) (hne : keys ≠ []) :
    ((buildAccounts keys dbg).map Prod.fst).Nodup ∧
    (∀ n, n ∈ (buildAccounts keys dbg).map Prod.fst ↔ n ∈ keys.map AccountKey.name) ∧
    (∀ p ∈ buildAccounts keys dbg, (Prod.snd p).name = p.1) ∧
    (∀ n, mapLookup (buildAccounts keys dbg) n =
      (lastKeyWith keys n).map (fun k => mkAccount k dbg)) :=
  ⟨buildAccounts_keys_nodup keys dbg,
    fun n => buildAccounts_keys_mem keys dbg n,
    buildAccounts_named keys dbg,
    fun n => buildAccounts_lookup keys dbg n⟩

def wDupKeys : List AccountKey :=
  [{ name := "A", apiKey := "k1", secretKey := "s1" },
   { name := "B", apiKey := "k2", secretKey := "s2" },
   { name := "A", apiKey := "k3", secretKey := "s3" }]

theorem C4_registry_last_wins_witness :
    wDupKeys ≠ [] ∧
    (((buildAccounts wDupKeys false).map Prod.fst).Nodup ∧
    (∀ n, n ∈ (buildAccounts wDupKeys false).map Prod.fst ↔ n ∈ wDupKeys.map AccountKey.name) ∧
    (∀ p ∈ buildAccounts wDupKeys false, (Prod.snd p).name = p.1) ∧
    (∀ n, mapLookup (buildAccounts wDupKeys false) n =
      (lastKeyWith wDupKeys n).map (fun k => mkAccount k false))) :=
  ⟨by decide, C4_registry_last_wins wDupKeys false (by decide)⟩

/-- C5: with a registry that loads successfully, the selector returns the
full registry (every account present) for the empty name filter, and a
single-entry mapping containing exactly the requested name and its account
when that name is present in the registry. -/
theorem C5_selector_resolution (env : Env) (keys : List AccountKey)
    (hload : loadKeys env (resolveKeyfile env.keyfile) = .ok keys) :
    (findAccountsImpl env "" = .ok (selAll (buildAccounts keys env.debugFlag))) ∧
    (∀ nm a, nm ≠ "" → mapLookup (buildAccounts keys env.debugFlag) nm = some a →
      findAccountsImpl env nm = .ok [(nm, some a)]) := by
  constructor
  · simp [findAccountsImpl, initAccounts, hload]
  · intro nm a hnm hl
    simp [findAccountsImpl, initAccounts, hload, hnm, hl]

theorem C5_selector_resolution_witness :
    (loadKeys wEnvA (resolveKeyfile wEnvA.keyfile) = .ok [wKeyA]) ∧
    ((findAccountsImpl wEnvA "" = .ok (selAll (buildAccounts [wKeyA] wEnvA.debugFlag))) ∧
    (∀ nm a, nm ≠ "" → mapLookup (buildAccounts [wKeyA] wEnvA.debugFlag) nm = some a →
      findAccountsImpl wEnvA nm = .ok [(nm, some a)])) :=
  ⟨rfl, C5_selector_resolution wEnvA [wKeyA] rfl⟩

/-- C8: an empty keyfile setting resolves to the default path "keys.json",
a non-empty keyfile setting is used unchanged, and initAccounts loads from
exactly the resolved path. -/
theorem C8_keyfile_default :
    (resolveKeyfile "" = "keys.json") ∧
    (∀ p : String, p ≠ "" → resolveKeyfile p = p) ∧
    (∀ env : Env, env.keyfile = "" →
      initAccounts env = (match loadKeys env "keys.json" with
        | .error e => .error e
        | .ok keys => .ok (buildAccounts keys env.debugFlag))) := by
  refine ⟨rfl, ?_, ?_⟩
  · intro p hp; simp [resolveKeyfile, hp]
  · intro env he; simp [initAccounts, resolveKeyfile, he]

theorem C8_keyfile_default_witness :
    ("mykeys.json" ≠ "") ∧ resolveKeyfile "mykeys.json" = "mykeys.json" :=
  ⟨by decide, C8_keyfile_default.2.1 "mykeys.json" (by decide)⟩

def wEnvMissingB : Env :=
  { name := "B", keyfile := "", debugFlag := false,
    readFile := fun _ => .ok "raw",
    unmarshal := fun _ => .ok [wKeyA] }

def wActionOk : Account → Except String String := fun _ => .ok "done"

/-- C1: for a selection by a name absent from the registry, the selector
does return a single-entry mapping whose account value is absent (nil),
but the fan-out executor does not convert the absent account into an
AccountNotFoundError error string: it dereferences the nil account and the
process panics (modelled by the nilDeref outcome, exit status 2).  The
registry here holds only account "A" and the name filter is "B". -/
theorem C1_absent_name_panics :
    findAccountsImpl wEnvMissingB "B" = .ok [("B", none)] ∧
    accountsDo .byName wEnvMissingB wActionOk
      (none : Option (List (String × Entry String) → Except String String)) = .nilDeref ∧
    exitCode (accountsDo .byName wEnvMissingB wActionOk
      (none : Option (List (String × Entry String) → Except String String))) = 2 :=
  ⟨rfl, rfl, rfl⟩

/-- C3: after a successful fan-out pass, a supplied finalizer that fails
makes the executor return that error and render nothing; a finalizer that
succeeds makes it render only the finalized value; and with no finalizer
it renders only the raw per-account results map — the rendered value is a
single one of the two shapes, never both. -/
theorem C3_finalizer_exclusive (accts : List (String × Option Account))
    (action : Account → Except String α)
    (results : List (String × Entry α)) (pa : List (String × Entry α) → Except String β)
    (hproc : processAccounts action accts [] = some results) :
    (∀ e, pa results = .error e →
      accountsDoSel accts action (some pa) = (.errReturn e : RunOutcome α β) ∧
      ∀ w, accountsDoSel accts action (some pa) ≠ (.rendered w : RunOutcome α β)) ∧
    (∀ v, pa results = .ok v →
      accountsDoSel accts action (some pa) = (.rendered (.inl v) : RunOutcome α β)) ∧
    (accountsDoSel accts action (none : Option (List (String × Entry α) → Except String β)) =
      .rendered (.inr results)) := by
  refine ⟨?_, ?_, ?_⟩
  · intro e he
    constructor
    · simp [accountsDoSel, hproc, he]
    · intro w; simp [accountsDoSel, hproc, he]
  · intro v hv; simp [accountsDoSel, hproc, hv]
  · simp [accountsDoSel, hproc]

def wSelA : List (String × Option Account) := [("A", some wAccountA)]

def wPaFail : List (String × Entry String) → Except String String :=
  fun _ => .error "bad totals"

def wResultsA : List (String × Entry String) := [("A", Entry.payload "done")]

theorem C3_finalizer_exclusive_witness :
    (processAccounts wActionOk wSelA [] = some wResultsA) ∧
    ((∀ e, wPaFail wResultsA = .error e →
      accountsDoSel wSelA wActionOk (some wPaFail) = (.errReturn e : RunOutcome String String) ∧
      ∀ w, accountsDoSel wSelA wActionOk (some wPaFail) ≠ (.rendered w : RunOutcome String String)) ∧
    (∀ v, wPaFail wResultsA = .ok v →
      accountsDoSel wSelA wActionOk (some wPaFail) = (.rendered (.inl v) : RunOutcome String String)) ∧
    (accountsDoSel wSelA wActionOk
        (none : Option (List (String × Entry String) → Except String String)) =
      .rendered (.inr wResultsA))) :=
  ⟨rfl, C3_finalizer_exclusive wSelA wActionOk wResultsA wPaFail rfl⟩

/-- C6: when the credential file cannot be read or parsed, every
accountsDo invocation — under either selector strategy, for every action
and for every finalizer choice — aborts with the fatal startup error (the
log.Fatal path) before any per-account work, exits non-zero, and produces
no result mapping. -/
theorem C6_fatal_load (env : Env) (e : String) (strat : Strategy)
    (h : loadKeys env (resolveKeyfile env.keyfile) = .error e) :
    ∀ (action : Account → Except String α)
      (pa : Option (List (String × Entry α) → Except String β)),
      accountsDo strat env action pa = .fatalExit e ∧
      exitCode (accountsDo strat env action pa) = 1 := by
  intro action pa
  have hinit : initAccounts env = .error e := by simp [initAccounts, h]
  cases strat <;>
    simp [accountsDo, runStrategy, findAccountsImpl, findAccountsArbitrary, hinit, exitCode]

def wEnvBadFile : Env :=
  { name := "", keyfile := "", debugFlag := false,
    readFile := fun _ => .error "no such file",
    unmarshal := fun _ => .ok [] }

theorem C6_fatal_load_witness :
    (loadKeys wEnvBadFile (resolveKeyfile wEnvBadFile.keyfile) = .error "no such file") ∧
    (accountsDo .byName wEnvBadFile wActionOk
        (none : Option (List (String × Entry String) → Except String String)) =
          .fatalExit "no such file" ∧
      exitCode (accountsDo .byName wEnvBadFile wActionOk
        (none : Option (List (String × Entry String) → Except String String))) = 1) :=
  ⟨rfl, C6_fatal_load wEnvBadFile "no such file" .byName rfl wActionOk none⟩

/-- C7: without a finalizer, the fan-out over a selection in which every
account is present always renders the raw results map and exits 0, for
every action — in particular when every selected account fails, in which
case every rendered entry is an "error: "-prefixed string. -/
theorem C7_errors_exit_zero (m : List (String × Account)) (action : Account → Except String α)
    (hfail : ∀ a : Account, ∃ e, action a = .error e) :
    ∃ results, accountsDoSel (selAll m) action
        (none : Option (List (String × Entry α) → Except String β)) = .rendered (.inr results) ∧
      exitCode (accountsDoSel (selAll m) action
        (none : Option (List (String × Entry α) → Except String β))) = 0 ∧
      ∀ q ∈ results, ∃ e, Prod.snd q = Entry.errorStr ("error: " ++ e) := by
  refine ⟨m.foldl (fun r p => mapUpsert r (Prod.snd p).name (entryFor action p.2)) [], ?_, ?_, ?_⟩
  · simp [accountsDoSel, processAccounts_selAll]
  · simp [accountsDoSel, processAccounts_selAll, exitCode]
  · refine fanoutFold_entries (P := fun q => ∃ e, Prod.snd q = Entry.errorStr ("error: " ++ e))
      action m [] (by intro q hq; simp at hq) ?_
    intro p _
    obtain ⟨e, he⟩ := hfail p.2
    exact ⟨e, by simp [entryFor, he]⟩

def wActionFailAll : Account → Except String String :=
  fun a => .error ("auth failure " ++ a.name)

theorem C7_errors_exit_zero_witness :
    (∀ a : Account, ∃ e, wActionFailAll a = .error e) ∧
    (∃ results, accountsDoSel (selAll wRegAB) wActionFailAll
        (none : Option (List (String × Entry String) → Except String String)) =
          .rendered (.inr results) ∧
      exitCode (accountsDoSel (selAll wRegAB) wActionFailAll
        (none : Option (List (String × Entry String) → Except String String))) = 0 ∧
      ∀ q ∈ results, ∃ e, Prod.snd q = Entry.errorStr ("error: " ++ e)) :=
  ⟨fun a => ⟨"auth failure " ++ a.name, rfl⟩,
   C7_errors_exit_zero wRegAB wActionFailAll (fun a => ⟨"auth failure " ++ a.name, rfl⟩)⟩

theorem execCalls_arbitrary (env : Env) :
    ∀ cs : List (Call α β),
      execCalls .arbitrarySingle env cs =
        (cs.map (fun c => accountsDo .arbitrarySingle env c.action c.post), .arbitrarySingle) := by
  intro cs
  induction cs with
  | nil => rfl
  | cons c rest ih =>
      by_cases h : c.viaRunOnce <;>
        simp [execCalls, stepCall, runOnce, h, ih]

/-- C9: a runOnce call permanently installs the arbitrary-single selector:
whatever strategy the process had before, after a call made through
runOnce the process-wide strategy is arbitrarySingle, every invocation in
the rest of the call sequence resolves accounts through the
arbitrary-single selector, and that selector ignores the name filter. -/
theorem C9_runOnce_permanent (s : Strategy) (env : Env) (c0 : Call α β)
    (h : c0.viaRunOnce = true) (cs : List (Call α β)) :
    (execCalls s env (c0 :: cs)).2 = .arbitrarySingle ∧
    (execCalls s env (c0 :: cs)).1 =
      accountsDo .arbitrarySingle env c0.action c0.post ::
        cs.map (fun c => accountsDo .arbitrarySingle env c.action c.post) ∧
    (∀ nm : String, runStrategy .arbitrarySingle { env with name := nm } =
      runStrategy .arbitrarySingle env) := by
  have hstep : stepCall s env c0 =
      (accountsDo .arbitrarySingle env c0.action c0.post, .arbitrarySingle) := by
    simp [stepCall, runOnce, h]
  refine ⟨?_, ?_, fun nm => rfl⟩
  · simp [execCalls, hstep, execCalls_arbitrary]
  · simp [execCalls, hstep, execCalls_arbitrary]

def wCallOnce : Call String String := { viaRunOnce := true, action := wActionOk, post := none }

def wCallDo : Call String String := { viaRunOnce := false, action := wActionOk, post := none }

theorem C9_runOnce_permanent_witness :
    wCallOnce.viaRunOnce = true ∧
    ((execCalls .byName wEnvA [wCallOnce, wCallDo]).2 = .arbitrarySingle ∧
    (execCalls .byName wEnvA [wCallOnce, wCallDo]).1 =
      accountsDo .arbitrarySingle wEnvA wCallOnce.action wCallOnce.post ::
        [wCallDo].map (fun c => accountsDo .arbitrarySingle wEnvA c.action c.post) ∧
    (∀ nm : String, runStrategy .arbitrarySingle { wEnvA with name := nm } =
      runStrategy .arbitrarySingle wEnvA)) :=
  ⟨rfl, C9_runOnce_permanent .byName wEnvA wCallOnce rfl [wCallDo]⟩

/-- C10: with an empty credential sequence and an empty name filter, both
selector strategies yield the empty selection (the arbitrary-single
selector returns the nil map, modelled as the empty one), the executor
without a finalizer invokes no operation, renders the empty results map
under either strategy, and exits 0. -/
theorem C10_empty_registry (env : Env)
    (hload : loadKeys env (resolveKeyfile env.keyfile) = .ok [])
    (hname : env.name = "") :
    ∀ (action : Account → Except String α),
      runStrategy .byName env = .ok [] ∧
      runStrategy .arbitrarySingle env = .ok [] ∧
      accountsDo .byName env action
        (none : Option (List (String × Entry α) → Except String β)) = .rendered (.inr []) ∧
      accountsDo .arbitrarySingle env action
        (none : Option (List (String × Entry α) → Except String β)) = .rendered (.inr []) ∧
      exitCode (accountsDo .byName env action
        (none : Option (List (String × Entry α) → Except String β))) = 0 := by
  intro action
  have hinit : initAccounts env = .ok [] := by simp [initAccounts, hload, buildAccounts]
  have h1 : runStrategy .byName env = .ok [] := by
    simp [runStrategy, findAccountsImpl, hinit, hname, selAll]
  have h2 : runStrategy .arbitrarySingle env = .ok [] := by
    simp [runStrategy, findAccountsArbitrary, hinit]
  refine ⟨h1, h2, ?_, ?_, ?_⟩
  · simp [accountsDo, h1, accountsDoSel, processAccounts]
  · simp [accountsDo, h2, accountsDoSel, processAccounts]
  · simp [accountsDo, h1, accountsDoSel, processAccounts, exitCode]

def wEnvEmpty : Env :=
  { name := "", keyfile := "", debugFlag := false,
    readFile := fun _ => .ok "[]",
    unmarshal := fun _ => .ok [] }

theorem C10_empty_registry_witness :
    (loadKeys wEnvEmpty (resolveKeyfile wEnvEmpty.keyfile) = .ok []) ∧
    (wEnvEmpty.name = "") ∧
    (runStrategy .byName wEnvEmpty = .ok [] ∧
      runStrategy .arbitrarySingle wEnvEmpty = .ok [] ∧
      accountsDo .byName wEnvEmpty wActionOk
        (none : Option (List (String × Entry String) → Except String String)) =
          .rendered (.inr []) ∧
      accountsDo .arbitrarySingle wEnvEmpty wActionOk
        (none : Option (List (String × Entry String) → Except String String)) =
          .rendered (.inr []) ∧
      exitCode (accountsDo .byName wEnvEmpty wActionOk
        (none : Option (List (String × Entry String) → Except String String))) = 0) :=
  ⟨rfl, rfl, C10_empty_registry wEnvEmpty rfl rfl wActionOk⟩

end BinanceCli
